import Mathlib

/-!
Shallow embedding of the `m3u8-parser` TypeScript repository
(`src/parser.ts` / `src/types.ts`) and verification of the frozen claims
about it.

Modelling conventions:
* JS strings are Lean `String`; all operations are defined over `String.data`
  (a `List Char`) so that every definition is executable and kernel-reducible.
* `"x".split(sep)` for a one-character separator is `splitChar`.
* `Array.prototype.join(sep)` is `joinSep`.
* JS `Map` (insertion ordered, `set` keeps the position of an existing key)
  is an association list with `jsMapGet` / `jsMapSet`.
* JS `Set` (insertion ordered) is a duplicate-free list with `setAdd`.
* The regexes of the source are embedded as explicit left-to-right scanners
  that implement the exact first-match semantics of `RegExp.exec` for the
  concrete patterns used (case-insensitive literal parts, `.` not matching
  CR/LF, character classes matching CR/LF).
* The zod validation boundary (`PlaylistItemValidator.parse`) is the identity
  on well-typed records except that it strips unknown object keys (zod's
  default "strip" mode); this matters once, in the locator branch of `parse`,
  where the source writes the shorthand key `user_agent` (not `"user-agent"`)
  into the http object and the validator silently drops it.
-/

set_option linter.unusedVariables false

/-! ### Generic JS string / array primitives -/

/-- Segments of a character list split at a separator character.
Models JS `String.prototype.split` with a single-character separator:
`"".split(c) = [""]`, separators at the ends produce empty segments. -/
def splitCharAux (sep : Char) : List Char → List (List Char)
  | [] => [[]]
  | c :: cs =>
    if c = sep then
      [] :: splitCharAux sep cs
    else
      match splitCharAux sep cs with
      | [] => [[c]]
      | h :: t => (c :: h) :: t

/-- Model of JS `s.split(sep)` for a one-character separator `sep`. -/
def splitChar (sep : Char) (s : String) : List String :=
  (splitCharAux sep s.data).map (fun l => ⟨l⟩)

/-- Model of JS `Array.prototype.join(sep)` on an array of strings. -/
def joinSep (sep : String) : List String → String
  | [] => ""
  | [s] => s
  | s :: rest => s ++ sep ++ joinSep sep rest

/-- The ASCII whitespace characters removed by JS `trim` / `trimStart` /
`trimEnd` (the Unicode-only whitespace code points are not modelled). -/
def jsWhitespace (c : Char) : Bool :=
  c = ' ' || c = '\t' || c = '\n' || c = '\r' || c = '\x0b' || c = '\x0c'

/-- Model of JS `s.trim()` (= `trimStart` followed by `trimEnd`). -/
def jsTrim (s : String) : String :=
  ⟨((s.data.dropWhile jsWhitespace).reverse.dropWhile jsWhitespace).reverse⟩

/-- Model of JS `s.startsWith(p)` (also used for the anchored regex test
`/^#EXTM3U/.test s`). -/
def jsStartsWith (s p : String) : Bool :=
  p.data.isPrefixOf s.data

/-- Model of JS `s.toLowerCase()` (ASCII case mapping). -/
def lowerStr (s : String) : String :=
  ⟨s.data.map Char.toLower⟩

/-- Case-insensitive character comparison, as performed by the `i` regex
flag. -/
def ciEqChar (a b : Char) : Bool :=
  a.toLower = b.toLower

/-- Does the pattern match case-insensitively at the start of the text? -/
def ciMatchesAt : List Char → List Char → Bool
  | [], _ => true
  | _ :: _, [] => false
  | p :: ps, c :: cs => ciEqChar p c && ciMatchesAt ps cs

/-- Characters refused by the regex metacharacter `.` (no `s` flag):
line terminators.  (The astral line separators are not modelled.) -/
def isCRLF (c : Char) : Bool :=
  c = '\n' || c = '\r'

/-- The regex class `\w`. -/
def isWordChar (c : Char) : Bool :=
  c.isAlpha || c.isDigit || c = '_'

/-! ### The field extractors of `M3U8Parser` -/

/-- One attempt of the regex `name="(.*?)"` at a fixed start position:
the literal part must match case-insensitively, then the lazy group
captures up to the next `"` on the same physical line (`.` does not match
CR/LF, so an unterminated value is not a match at this position). -/
def attrMatchAt (pat : List Char) (cs : List Char) : Option (List Char) :=
  if ciMatchesAt pat cs then
    let rest := cs.drop pat.length
    let v := rest.takeWhile (fun c => !(c = '"' || isCRLF c))
    match rest.drop v.length with
    | '"' :: _ => some v
    | _ => none
  else none

/-- First match of `attrMatchAt` over all start positions, left to right:
the `RegExp.exec` leftmost-match rule. -/
def findAttr (pat : List Char) : List Char → Option (List Char)
  | [] => none
  | c :: cs =>
    match attrMatchAt pat (c :: cs) with
    | some v => some v
    | none => findAttr pat cs

/-- `M3U8Parser.getAttribute`: value of the first `name="value"` occurrence
(case-insensitive), trimmed; `""` when there is no match or the captured
value is empty (`match && match[1]` treats `""` as falsy). -/
def getAttribute (name : String) (line : String) : String :=
  match findAttr (name.data ++ ['=', '"']) line.data with
  | some v => if v = [] then "" else jsTrim ⟨v⟩
  | none => ""

/-- `M3U8Parser.getName`: text after the last comma of the first physical
line (`line.split(/[\r\n]+/).shift().split(",").pop()`), trimmed;
the final `name || ""` is the identity on strings once `""` maps to `""`. -/
def getName (line : String) : String :=
  let first : List Char := line.data.takeWhile (fun c => !isCRLF c)
  jsTrim ⟨(splitCharAux ',' first).getLastD []⟩

/-- First case-insensitive occurrence of a literal pattern; returns the text
following the occurrence.  Implements `RegExp.exec` for `pat(.*)`-shaped
patterns whose prefix is a literal. -/
def findCiSeg (pat : List Char) : List Char → Option (List Char)
  | [] => none
  | c :: cs =>
    if ciMatchesAt pat (c :: cs) then some ((c :: cs).drop pat.length)
    else findCiSeg pat cs

/-- `M3U8Parser.getOption`: regex `:name=(.*)` (flags `gi`); the capture
runs to the end of the physical line (`.` excludes CR/LF); double quotes are
removed from a non-empty capture; `""` otherwise.  Note the return type:
this function always yields a string, never `null`/`undefined`. -/
def getOption (line : String) (name : String) : String :=
  match findCiSeg (':' :: (name.data ++ ['='])) line.data with
  | some rest =>
    let v := rest.takeWhile (fun c => !isCRLF c)
    if v = [] then "" else ⟨v.filter (fun c => c ≠ '"')⟩
  | none => ""

/-- `M3U8Parser.getValue`: regex `:(.*)` — everything after the first colon
on the physical line, quotes removed; `""` when there is no colon or the
rest is empty.  Always a string, never `null`/`undefined`. -/
def getValue (line : String) : String :=
  match findCiSeg [':'] line.data with
  | some rest =>
    let v := rest.takeWhile (fun c => !isCRLF c)
    if v = [] then "" else ⟨v.filter (fun c => c ≠ '"')⟩
  | none => ""

/-- `M3U8Parser.getUrl`: `line.split("|")[0] || ""` — the segment before the
first pipe (the whole line when there is no pipe). -/
def getUrl (line : String) : String :=
  (splitChar '|' line).headD ""

/-- The replacement `line.replace(/^(.*)\|/, "")`: the greedy dot (which
cannot cross CR/LF) anchored at the start consumes up to the LAST pipe in
the initial CR/LF-free prefix; when that prefix holds no pipe the regex
fails and the line is left unchanged. -/
def paramSeg (s : String) : String :=
  let pre := s.data.takeWhile (fun c => !isCRLF c)
  if pre.contains '|' then
    ⟨(pre.reverse.takeWhile (fun c => c ≠ '|')).reverse ++ s.data.drop pre.length⟩
  else s

/-- One leftmost-match scan of the regex `name=(\w[^&]*)` (flags `gi`):
at the first position where the literal part matches case-insensitively AND
is followed by a word character, the capture is that word character plus the
maximal run of non-`&` characters. -/
def findParam (pat : List Char) : List Char → Option (List Char)
  | [] => none
  | c :: cs =>
    if ciMatchesAt pat (c :: cs) then
      match (c :: cs).drop pat.length with
      | w :: rest =>
        if isWordChar w then some (w :: rest.takeWhile (fun k => k ≠ '&'))
        else findParam pat cs
      | [] => findParam pat cs
    else findParam pat cs

/-- `M3U8Parser.getParameter`: strip up to the last pipe, then run
`name=(\w[^&]*)` on the remainder; `""` when there is no match (a successful
capture always starts with a word character, hence is non-empty/truthy). -/
def getParameter (line : String) (name : String) : String :=
  match findParam (name.data ++ ['=']) (paramSeg line).data with
  | some v => ⟨v⟩
  | none => ""

/-! ### Data model (`src/types.ts`) -/

structure PlaylistItemTvg where
  id : String
  name : String
  url : String
  logo : String
  /-- source field name: `rec` (renamed: `rec` collides with the Lean recursor name) -/
  recording : String
deriving DecidableEq

structure HttpTransport where
  referrer : String
  userAgent : String
deriving DecidableEq

structure CatchupInfo where
  type : String
  source : String
  days : String
deriving DecidableEq

structure GroupInfo where
  title : String
deriving DecidableEq

structure PlaylistItem where
  name : String
  index : Nat
  tvg : PlaylistItemTvg
  group : GroupInfo
  http : HttpTransport
  url : Option String
  raw : String
  timeshift : String
  catchup : CatchupInfo
deriving DecidableEq

structure PlaylistHeader where
  attrs : List (String × String)
  raw : String
deriving DecidableEq

structure Playlist where
  header : PlaylistHeader
  items : List PlaylistItem
  raw : Option String
deriving DecidableEq

/-! ### JS `Map` / `Set` models -/

/-- `Map.prototype.get`. -/
def jsMapGet {κ α : Type} [DecidableEq κ] (m : List (κ × α)) (k : κ) : Option α :=
  (m.find? (fun p => p.1 = k)).map (fun p => p.2)

/-- `Map.prototype.set`: replaces in place when the key exists (keeping its
iteration position), appends otherwise. -/
def jsMapSet {κ α : Type} [DecidableEq κ] (m : List (κ × α)) (k : κ) (v : α) :
    List (κ × α) :=
  match m with
  | [] => [(k, v)]
  | (k', v') :: rest =>
    if k' = k then (k, v) :: rest else (k', v') :: jsMapSet rest k v

/-- `Set.prototype.add` (insertion ordered, idempotent). -/
def setAdd (s : List String) (x : String) : List String :=
  if x ∈ s then s else s ++ [x]

/-! ### The per-line handlers of `M3U8Parser` -/

/-- `M3U8Parser.mergeRaw` (string variant; the `ParsedLine` overload only
re-reads `.raw`): `item?.raw ? item.raw.concat("\n" + line) : line`. -/
def mergeRaw (item : PlaylistItem) (line : String) : String :=
  if item.raw ≠ "" then item.raw ++ "\n" ++ line else line

/-- `M3U8Parser.handleEXTINF` on a `ParsedLine` (index, raw). -/
def handleEXTINF (line : Nat × String) : PlaylistItem :=
  { name := getName line.2
    index := line.1 + 1
    tvg := { id := getAttribute "tvg-id" line.2
             name := getAttribute "tvg-name" line.2
             logo := getAttribute "tvg-logo" line.2
             url := getAttribute "tvg-url" line.2
             recording := getAttribute "tvg-rec" line.2 }
    group := { title := getAttribute "group-title" line.2 }
    http := { referrer := "", userAgent := getAttribute "user-agent" line.2 }
    url := none
    raw := line.2
    timeshift := getAttribute "timeshift" line.2
    catchup := { type := getAttribute "catchup" line.2
                 days := getAttribute "catchup-days" line.2
                 source := getAttribute "catchup-source" line.2 } }

/-- `M3U8Parser.handleEXTVLCOPT`.  Both `?? item?.http[...]` fallbacks of the
source are dead code: `getOption` returns a string in every case (`""` when
the option is absent), so `??` never selects the old field value.  The `raw`
field is literally replaced by `"\r\n" + line` in the source (no `mergeRaw`).
The `none` branch is unreachable from `parse`, which only calls this handler
after checking `this.items.get(i)`. -/
def handleEXTVLCOPT (items : List (Nat × PlaylistItem)) (line : String)
    (index : Nat) : List (Nat × PlaylistItem) :=
  match jsMapGet items index with
  | none => items
  | some item =>
    jsMapSet items index
      { item with
        http := { userAgent := getOption line "http-user-agent"
                  referrer := getOption line "http-referrer" }
        raw := "\r\n" ++ line }

/-- `M3U8Parser.handleEXTGRP`.  The `?? item?.group.title` fallback of the
source is dead code (`getValue` always returns a string). -/
def handleEXTGRP (items : List (Nat × PlaylistItem)) (line : String)
    (index : Nat) : List (Nat × PlaylistItem) :=
  match jsMapGet items index with
  | none => items
  | some item =>
    jsMapSet items index
      { item with
        group := { title := getValue line }
        raw := mergeRaw item line }

/-! ### The parse loop -/

structure LoopState where
  i : Nat
  items : List (Nat × PlaylistItem)
  groups : List String
deriving DecidableEq

/-- One iteration of the `for (const line of lines)` loop of
`M3U8Parser.parse` (the `continue` on `line.index === 0` included).

In the locator (`else`) branch the source builds
`http: { ...item.http, user_agent, referrer }`: the shorthand property
`user_agent` is a NEW object key (it is not the declared key
`"user-agent"`), and `PlaylistItemValidator.parse` — a zod object schema in
its default "strip" mode — silently removes it.  The stored entry therefore
keeps its previous `"user-agent"` value (supplied by the spread) while
`referrer` is overwritten by the `getParameter` result.  The extracted
`user_agent` value is computed and then lost. -/
def parseStep (st : LoopState) (line : Nat × String) : LoopState :=
  if line.1 = 0 then st
  else
    let s := jsTrim line.2
    if jsStartsWith s "#EXTINF:" then
      { st with items := jsMapSet st.items st.i (handleEXTINF line) }
    else if jsStartsWith s "#EXTVLCOPT:" then
      match jsMapGet st.items st.i with
      | none => st
      | some _ => { st with items := handleEXTVLCOPT st.items s st.i }
    else if jsStartsWith s "#EXTGRP:" then
      match jsMapGet st.items st.i with
      | none => st
      | some _ => { st with items := handleEXTGRP st.items s st.i }
    else
      match jsMapGet st.items st.i with
      | none => st
      | some item =>
        let url := getUrl s
        let userAgent := getParameter s "user-agent"
        let referrer := getParameter s "referer"
        let groups := setAdd st.groups item.group.title
        if url ≠ "" then
          { i := st.i + 1
            groups := groups
            items := jsMapSet st.items st.i
              { item with
                url := some url
                http := { userAgent := item.http.userAgent, referrer := referrer }
                raw := mergeRaw item line.2 } }
        else
          { st with
            groups := groups
            items := jsMapSet st.items st.i { item with raw := mergeRaw item line.2 } }

/-- `M3U8Parser.parseHeader`: the two supported header attributes, kept only
when non-empty, in the fixed probe order. -/
def parseHeader (line : String) : PlaylistHeader :=
  { attrs := ["x-tvg-url", "url-tvg"].filterMap
      (fun a => let v := getAttribute a line; if v ≠ "" then some (a, v) else none)
    raw := line }

/-- The state `M3U8Parser.parse` deposits on the instance. -/
structure ParserState where
  header : PlaylistHeader
  items : List (Nat × PlaylistItem)
  groups : List String
deriving DecidableEq

/-- `M3U8Parser.parse`.  A thrown `Error("Playlist is not valid")` is the
`Except.error` case; on the error path nothing has been written to `items`,
`groups` or `header`, which the `Except` result models by carrying no
state at all. -/
def parse (raw : String) : Except String ParserState :=
  let lines := (splitChar '\n' raw).enum
  match lines.find? (fun l => l.1 = 0) with
  | none => Except.error "Playlist is not valid"
  | some firstLine =>
    if !jsStartsWith firstLine.2 "#EXTM3U" then
      Except.error "Playlist is not valid"
    else
      let final := lines.foldl parseStep { i := 0, items := [], groups := [] }
      Except.ok { header := parseHeader firstLine.2
                  items := final.items
                  groups := final.groups }

/-- `M3U8Parser.write`: `header.raw + "\n" + items.map(raw).join("\n")`. -/
def write (st : ParserState) : String :=
  st.header.raw ++ "\n" ++ joinSep "\n" (st.items.map (fun p => p.2.raw))

/-! ### The filtering / cache engine -/

/-- The mutable fields of an `M3U8Parser` instance used by the filter and
update methods. -/
structure ParserObj where
  rawPlaylist : String
  items : List (Nat × PlaylistItem)
  header : PlaylistHeader
  groups : List String
  filteredMap : List (String × Playlist)
deriving DecidableEq

/-- `M3U8Parser.getPlaylistItems`: case-insensitive prefix filter of the
entry values by the requested group string. -/
def getPlaylistItems (p : ParserObj) (group : String) : List PlaylistItem :=
  (p.items.map (fun q => q.2)).filter
    (fun item => jsStartsWith (lowerStr item.group.title) (lowerStr group))

/-- `M3U8Parser.getPlaylistByGroup`: cache key
`group.split("").join("-")` — the group string exploded into characters and
re-joined with `-`. -/
def getPlaylistByGroup (p : ParserObj) (group : String) : Playlist × ParserObj :=
  let key := joinSep "-" (group.data.map (fun c => ⟨[c]⟩))
  match jsMapGet p.filteredMap key with
  | some cached => (cached, p)
  | none =>
    let playlist : Playlist := { header := p.header, items := getPlaylistItems p group, raw := none }
    (playlist, { p with filteredMap := jsMapSet p.filteredMap key playlist })

/-- `M3U8Parser.getPlaylistsByGroups`: cache key `groups.join("-")`;
on a miss the per-group results are concatenated in order. -/
def getPlaylistsByGroups (p : ParserObj) (groups : List String) : Playlist × ParserObj :=
  let key := joinSep "-" groups
  match jsMapGet p.filteredMap key with
  | some cached => (cached, p)
  | none =>
    let items := groups.foldl (fun acc g => acc ++ getPlaylistItems p g) []
    let playlist : Playlist := { header := p.header, items := items, raw := none }
    (playlist, { p with filteredMap := jsMapSet p.filteredMap key playlist })

/-- `M3U8Parser.updateItems`: replaces the entry map, touching nothing else
(in particular not `filteredMap`). -/
def updateItems (p : ParserObj) (items : List (Nat × PlaylistItem)) : ParserObj :=
  { p with items := items }

/-- `M3U8Parser.updatePlaylist`: re-keys the given entries `0, 1, 2, …` in
order; `filteredMap` is untouched. -/
def updatePlaylist (p : ParserObj) (pl : Playlist) : ParserObj :=
  { p with items := pl.items.enum }

example : splitChar '\n' "" = [""] := by decide
example : splitChar '\n' "a\nb\n" = ["a", "b", ""] := by decide
example : joinSep "\n" ["a", "b", ""] = "a\nb\n" := by decide
example : getAttribute "tvg-id" "#EXTINF:-1 tvg-id=\"ABC\" x,Name" = "ABC" := by decide
example : getAttribute "tvg-id" "#EXTINF:-1,Name" = "" := by decide
example : getName "#EXTINF:-1 tvg-id=\"A\", News Channel" = "News Channel" := by decide
example : getUrl "http://x|a=1" = "http://x" := by decide
example : getParameter "http://x|user-agent=UA&referer=R" "referer" = "R" := by decide
example : getParameter "http://x|user-agent=UA&referer=R" "user-agent" = "UA" := by decide
example : getOption "#EXTVLCOPT:http-user-agent=\"ua\"" "http-user-agent" = "ua" := by decide
example : getOption "#EXTVLCOPT:http-referrer=r" "http-user-agent" = "" := by decide

/-! ### Split / join round-trip lemmas -/

theorem splitCharAux_ne_nil (sep : Char) (cs : List Char) :
    splitCharAux sep cs ≠ [] := by
  induction cs with
  | nil => simp [splitCharAux]
  | cons c cs ih =>
    simp only [splitCharAux]
    split
    · simp
    · cases h : splitCharAux sep cs <;> simp

/-- Interleaving join on character lists (the `List Char` image of
`joinSep` for a one-character separator). -/
def joinCharAux (sep : Char) : List (List Char) → List Char
  | [] => []
  | [l] => l
  | l :: rest => l ++ sep :: joinCharAux sep rest

theorem joinCharAux_cons₂ (sep : Char) (l m : List Char) (rest : List (List Char)) :
    joinCharAux sep (l :: m :: rest) = l ++ sep :: joinCharAux sep (m :: rest) := rfl

theorem joinSep_cons₂ (sep a b : String) (rest : List String) :
    joinSep sep (a :: b :: rest) = a ++ sep ++ joinSep sep (b :: rest) := rfl

theorem joinCharAux_splitCharAux (sep : Char) (cs : List Char) :
    joinCharAux sep (splitCharAux sep cs) = cs := by
  induction cs with
  | nil => rfl
  | cons c cs ih =>
    simp only [splitCharAux]
    by_cases h : c = sep
    · rw [if_pos h]
      rcases hs : splitCharAux sep cs with _ | ⟨hd, tl⟩
      · exact absurd hs (splitCharAux_ne_nil sep cs)
      · rw [hs] at ih
        rw [joinCharAux_cons₂, ← ih, h]
        rfl
    · rw [if_neg h]
      rcases hs : splitCharAux sep cs with _ | ⟨hd, tl⟩
      · exact absurd hs (splitCharAux_ne_nil sep cs)
      · rw [hs] at ih
        cases tl with
        | nil => simpa [joinCharAux] using congrArg (c :: ·) ih
        | cons t ts =>
          rw [joinCharAux_cons₂] at ih ⊢
          simpa using congrArg (c :: ·) ih

theorem joinSep_map_mk (sep : Char) (L : List (List Char)) :
    joinSep ⟨[sep]⟩ (L.map (fun l => ⟨l⟩)) = ⟨joinCharAux sep L⟩ := by
  induction L with
  | nil => rfl
  | cons l rest ih =>
    cases rest with
    | nil => rfl
    | cons m ts =>
      simp only [List.map_cons]
      rw [joinSep_cons₂, ← List.map_cons, ih, joinCharAux_cons₂]
      apply String.ext
      simp

/-- `join("\n")` undoes `split("\n")` exactly, on every string. -/
theorem joinSep_splitChar (sep : Char) (s : String) :
    joinSep ⟨[sep]⟩ (splitChar sep s) = s := by
  rw [splitChar, joinSep_map_mk, joinCharAux_splitCharAux]

/-! ### JS `Map` model lemmas -/

theorem jsMapGet_set_self {κ α : Type} [DecidableEq κ]
    (m : List (κ × α)) (k : κ) (v : α) :
    jsMapGet (jsMapSet m k v) k = some v := by
  induction m with
  | nil => simp [jsMapSet, jsMapGet, List.find?]
  | cons p rest ih =>
    obtain ⟨k', v'⟩ := p
    by_cases h : k' = k
    · simp [jsMapSet, h, jsMapGet, List.find?]
    · simpa [jsMapSet, h, jsMapGet, List.find?] using ih

theorem jsMapSet_fresh {κ α : Type} [DecidableEq κ]
    (m : List (κ × α)) (k : κ) (v : α) (h : ∀ p ∈ m, p.1 ≠ k) :
    jsMapSet m k v = m ++ [(k, v)] := by
  induction m with
  | nil => rfl
  | cons p rest ih =>
    obtain ⟨k', v'⟩ := p
    have hk : k' ≠ k := h (k', v') (by simp)
    simp only [jsMapSet, if_neg hk, List.cons_append, List.cons.injEq, true_and]
    exact ih (fun q hq => h q (by simp [hq]))

theorem jsMapGet_append_last {κ α : Type} [DecidableEq κ]
    (m : List (κ × α)) (k : κ) (v : α) (h : ∀ p ∈ m, p.1 ≠ k) :
    jsMapGet (m ++ [(k, v)]) k = some v := by
  induction m with
  | nil => simp [jsMapGet, List.find?]
  | cons p rest ih =>
    obtain ⟨k', v'⟩ := p
    have hk : k' ≠ k := h (k', v') (by simp)
    simpa [jsMapGet, List.find?, hk] using ih (fun q hq => h q (by simp [hq]))

theorem jsMapSet_append_last {κ α : Type} [DecidableEq κ]
    (m : List (κ × α)) (k : κ) (v w : α) (h : ∀ p ∈ m, p.1 ≠ k) :
    jsMapSet (m ++ [(k, v)]) k w = m ++ [(k, w)] := by
  induction m with
  | nil => simp [jsMapSet]
  | cons p rest ih =>
    obtain ⟨k', v'⟩ := p
    have hk : k' ≠ k := h (k', v') (by simp)
    simp only [List.cons_append, jsMapSet, if_neg hk, List.cons.injEq, true_and]
    exact ih (fun q hq => h q (by simp [hq]))

/-! ### Single-step characterisations of the parse loop -/

theorem parseStep_header (st : LoopState) (x : String) :
    parseStep st (0, x) = st := by
  simp [parseStep]

theorem parseStep_extinf (st : LoopState) (m : Nat) (e : String) (hm : m ≠ 0)
    (he : jsStartsWith (jsTrim e) "#EXTINF:" = true) :
    parseStep st (m, e) =
      { st with items := jsMapSet st.items st.i (handleEXTINF (m, e)) } := by
  simp [parseStep, hm, he]

theorem parseStep_locator (st : LoopState) (m : Nat) (l : String)
    (item : PlaylistItem) (hm : m ≠ 0)
    (h1 : jsStartsWith (jsTrim l) "#EXTINF:" = false)
    (h2 : jsStartsWith (jsTrim l) "#EXTVLCOPT:" = false)
    (h3 : jsStartsWith (jsTrim l) "#EXTGRP:" = false)
    (hitem : jsMapGet st.items st.i = some item)
    (hurl : getUrl (jsTrim l) ≠ "") :
    parseStep st (m, l) =
      { i := st.i + 1
        groups := setAdd st.groups item.group.title
        items := jsMapSet st.items st.i
          { item with
            url := some (getUrl (jsTrim l))
            http := { userAgent := item.http.userAgent
                      referrer := getParameter (jsTrim l) "referer" }
            raw := mergeRaw item l } } := by
  simp [parseStep, hm, h1, h2, h3, hitem, hurl]

theorem ne_empty_of_extinf (e : String)
    (h : jsStartsWith (jsTrim e) "#EXTINF:" = true) : e ≠ "" := by
  intro he
  subst he
  exact absurd h (by decide)

/-! ### Further single-step characterisations -/

theorem parseStep_extgrp (st : LoopState) (m : Nat) (x : String)
    (item : PlaylistItem) (hm : m ≠ 0)
    (h1 : jsStartsWith (jsTrim x) "#EXTINF:" = false)
    (h2 : jsStartsWith (jsTrim x) "#EXTVLCOPT:" = false)
    (h3 : jsStartsWith (jsTrim x) "#EXTGRP:" = true)
    (hitem : jsMapGet st.items st.i = some item) :
    parseStep st (m, x) =
      { st with
        items := jsMapSet st.items st.i
          { item with
            group := { title := getValue (jsTrim x) }
            raw := mergeRaw item (jsTrim x) } } := by
  simp [parseStep, hm, h1, h2, h3, hitem, handleEXTGRP]

theorem parseStep_nofinal (st : LoopState) (m : Nat) (x : String)
    (item : PlaylistItem) (hm : m ≠ 0)
    (h1 : jsStartsWith (jsTrim x) "#EXTINF:" = false)
    (h2 : jsStartsWith (jsTrim x) "#EXTVLCOPT:" = false)
    (h3 : jsStartsWith (jsTrim x) "#EXTGRP:" = false)
    (hitem : jsMapGet st.items st.i = some item)
    (hurl : getUrl (jsTrim x) = "") :
    parseStep st (m, x) =
      { st with
        groups := setAdd st.groups item.group.title
        items := jsMapSet st.items st.i { item with raw := mergeRaw item x } } := by
  simp [parseStep, hm, h1, h2, h3, hitem, hurl]

theorem mergeRaw_ne (item : PlaylistItem) (l : String) (h : item.raw ≠ "") :
    mergeRaw item l = item.raw ++ "\n" ++ l := by
  simp [mergeRaw, h]

/-! ### `jsTrim` is idempotent -/

theorem dropWhile_idem (p : Char → Bool) (l : List Char) :
    List.dropWhile p (List.dropWhile p l) = List.dropWhile p l := by
  induction l with
  | nil => rfl
  | cons c cs ih =>
    by_cases h : p c
    · simp [List.dropWhile_cons, h, ih]
    · simp [List.dropWhile_cons, h]

theorem dropWhile_head_false (p : Char → Bool) (l : List Char) (c : Char)
    (cs : List Char) (h : List.dropWhile p l = c :: cs) : p c = false := by
  induction l with
  | nil => simp at h
  | cons a l ih =>
    cases hpa : p a with
    | true =>
      rw [List.dropWhile_cons, if_pos hpa] at h
      exact ih h
    | false =>
      rw [List.dropWhile_cons, if_neg (by simp [hpa])] at h
      injection h with h1 _
      rw [← h1]
      exact hpa

theorem dropWhile_append_last (p : Char → Bool) (c : Char) (h : p c = false)
    (l : List Char) : ∃ d, List.dropWhile p (l ++ [c]) = d ++ [c] := by
  induction l with
  | nil => exact ⟨[], by simp [List.dropWhile_cons, h]⟩
  | cons a l ih =>
    cases hpa : p a with
    | true =>
      obtain ⟨d, hd⟩ := ih
      exact ⟨d, by simp [List.dropWhile_cons, hpa, hd]⟩
    | false =>
      exact ⟨a :: l, by simp [List.dropWhile_cons, hpa]⟩

theorem leftTrimmed_back (A : List Char)
    (hA : List.dropWhile jsWhitespace A = A) :
    List.dropWhile jsWhitespace
        ((List.dropWhile jsWhitespace A.reverse).reverse) =
      (List.dropWhile jsWhitespace A.reverse).reverse := by
  cases hAc : A with
  | nil => simp
  | cons c cs =>
    have hc : jsWhitespace c = false := by
      apply dropWhile_head_false jsWhitespace A c cs
      rw [hA, hAc]
    rw [List.reverse_cons]
    obtain ⟨d, hd⟩ := dropWhile_append_last jsWhitespace c hc cs.reverse
    rw [hd, List.reverse_append]
    simp [List.dropWhile_cons, hc]

theorem jsTrim_idem (s : String) : jsTrim (jsTrim s) = jsTrim s := by
  apply String.ext
  have hX : List.dropWhile jsWhitespace (jsTrim s).data = (jsTrim s).data := by
    show List.dropWhile jsWhitespace
        ((List.dropWhile jsWhitespace
          (List.dropWhile jsWhitespace s.data).reverse).reverse) = _
    exact leftTrimmed_back _ (dropWhile_idem _ _)
  show ((List.dropWhile jsWhitespace
      ((List.dropWhile jsWhitespace (jsTrim s).data).reverse)).reverse) =
    (jsTrim s).data
  rw [hX]
  show (List.dropWhile jsWhitespace
      ((List.dropWhile jsWhitespace
        (List.dropWhile jsWhitespace s.data).reverse).reverse).reverse).reverse = _
  rw [List.reverse_reverse, dropWhile_idem]
  rfl

theorem mem_of_mem_dropWhile (p : Char → Bool) (l : List Char) (c : Char)
    (h : c ∈ List.dropWhile p l) : c ∈ l := by
  induction l with
  | nil => simp at h
  | cons a l ih =>
    cases hpa : p a with
    | true =>
      rw [List.dropWhile_cons, if_pos hpa] at h
      exact List.mem_cons_of_mem a (ih h)
    | false =>
      rw [List.dropWhile_cons, if_neg (by simp [hpa])] at h
      exact h

theorem mem_of_mem_jsTrim (s : String) (c : Char) (h : c ∈ (jsTrim s).data) :
    c ∈ s.data := by
  have h1 : c ∈ (List.dropWhile jsWhitespace
      (List.dropWhile jsWhitespace s.data).reverse).reverse := h
  rw [List.mem_reverse] at h1
  have h2 := mem_of_mem_dropWhile _ _ _ h1
  rw [List.mem_reverse] at h2
  exact mem_of_mem_dropWhile _ _ _ h2

/-! ### `split` undoes `join` on newline-free lines -/

theorem joinSep_cons_ne (sep a : String) (rest : List String) (h : rest ≠ []) :
    joinSep sep (a :: rest) = a ++ sep ++ joinSep sep rest := by
  cases rest with
  | nil => contradiction
  | cons b t => rfl

theorem splitCharAux_not_mem (sep : Char) (cs : List Char) :
    ∀ l ∈ splitCharAux sep cs, sep ∉ l := by
  induction cs with
  | nil =>
    intro l hl
    simp [splitCharAux] at hl
    subst hl
    simp
  | cons c cs ih =>
    intro l hl
    simp only [splitCharAux] at hl
    by_cases hc : c = sep
    · rw [if_pos hc] at hl
      rcases List.mem_cons.mp hl with h | h
      · subst h; simp
      · exact ih l h
    · rw [if_neg hc] at hl
      rcases hs : splitCharAux sep cs with _ | ⟨hd, tl⟩
      · exact absurd hs (splitCharAux_ne_nil sep cs)
      · rw [hs] at hl
        rcases List.mem_cons.mp hl with h | h
        · subst h
          intro hmem
          rcases List.mem_cons.mp hmem with h' | h'
          · exact hc h'.symm
          · exact ih hd (by rw [hs]; exact List.mem_cons_self hd tl) h'
        · exact ih l (by rw [hs]; exact List.mem_cons_of_mem hd h)

theorem splitChar_not_mem (sep : Char) (s : String) :
    ∀ x ∈ splitChar sep s, sep ∉ x.data := by
  intro x hx
  rw [splitChar, List.mem_map] at hx
  obtain ⟨l, hl, hxl⟩ := hx
  subst hxl
  exact splitCharAux_not_mem sep s.data l hl

theorem splitCharAux_no_sep (sep : Char) (l : List Char) (h : sep ∉ l) :
    splitCharAux sep l = [l] := by
  induction l with
  | nil => rfl
  | cons c cs ih =>
    have hc : ¬ c = sep := by
      intro hcc
      exact h (by rw [hcc]; exact List.mem_cons_self _ _)
    have hcs : sep ∉ cs := fun hmem => h (List.mem_cons_of_mem _ hmem)
    simp only [splitCharAux, if_neg hc, ih hcs]

theorem splitCharAux_append_sep (sep : Char) (T : List Char) :
    ∀ l : List Char, sep ∉ l →
      splitCharAux sep (l ++ sep :: T) = l :: splitCharAux sep T := by
  intro l
  induction l with
  | nil => intro _; simp [splitCharAux]
  | cons c l ih =>
    intro h
    have hc : ¬ c = sep := by
      intro hcc
      exact h (by rw [hcc]; exact List.mem_cons_self _ _)
    have hl : sep ∉ l := fun hmem => h (List.mem_cons_of_mem _ hmem)
    rw [List.cons_append]
    simp only [splitCharAux, if_neg hc, ih hl]

theorem splitCharAux_joinCharAux (sep : Char) :
    ∀ Ld : List (List Char), Ld ≠ [] → (∀ l ∈ Ld, sep ∉ l) →
      splitCharAux sep (joinCharAux sep Ld) = Ld := by
  intro Ld
  induction Ld with
  | nil => intro h _; contradiction
  | cons l rest ih =>
    intro _ hall
    cases rest with
    | nil => exact splitCharAux_no_sep sep l (hall l (List.mem_cons_self _ _))
    | cons l2 rest2 =>
      rw [joinCharAux_cons₂,
        splitCharAux_append_sep sep _ l (hall l (List.mem_cons_self _ _)),
        ih (by simp) (fun x hx => hall x (List.mem_cons_of_mem _ hx))]

theorem splitChar_joinSep (L : List String) (hne : L ≠ [])
    (h : ∀ x ∈ L, '\n' ∉ x.data) :
    splitChar '\n' (joinSep "\n" L) = L := by
  have hcomp : ((fun l : List Char => (⟨l⟩ : String)) ∘ String.data) = id := by
    funext s
    rfl
  have hdata : joinSep "\n" L = ⟨joinCharAux '\n' (L.map String.data)⟩ := by
    have h1 := joinSep_map_mk '\n' (L.map String.data)
    rw [List.map_map, hcomp, List.map_id] at h1
    have hnl : ("\n" : String) = ⟨['\n']⟩ := rfl
    rw [hnl]
    exact h1
  rw [hdata, splitChar]
  rw [show (⟨joinCharAux '\n' (L.map String.data)⟩ : String).data =
      joinCharAux '\n' (L.map String.data) from rfl]
  rw [splitCharAux_joinCharAux '\n' (L.map String.data) (by simpa using hne)
      (fun l hl => by
        rw [List.mem_map] at hl
        obtain ⟨s, hs, rfl⟩ := hl
        exact h s hs)]
  rw [List.map_map, hcomp, List.map_id]

theorem joinSep_glue (a b : String) (rest : List String) :
    joinSep "\n" ((a ++ "\n" ++ b) :: rest) = a ++ "\n" ++ joinSep "\n" (b :: rest) := by
  cases rest with
  | nil => rfl
  | cons r t =>
    rw [joinSep_cons₂, joinSep_cons₂]
    simp [String.append_assoc]

theorem append_nl_ne (a b : String) : a ++ "\n" ++ b ≠ "" := by
  intro h
  have hm : '\n' ∈ (a ++ "\n" ++ b).data := by
    rw [String.data_append, String.data_append]
    exact List.mem_append.mpr (Or.inl (List.mem_append.mpr (Or.inr (by decide))))
  rw [h] at hm
  exact absurd hm (by decide)

/-! ### Block-structured playlists (serialisation round trip)

A block is one metadata line, then any number of "middle" lines — category
overrides (`#EXTGRP:`) and non-finalising lines folded into the entry
(blank after trimming, or with an empty pre-pipe segment) — then one
finalising locator line.  Only option-override (`#EXTVLCOPT:`) lines and
dropped lines (lines processed while no entry exists at the slot) are
excluded: the former clobber `raw`, the latter shift the `index` fields of
later entries on a re-parse. -/

structure PBlock where
  metaLine : String
  midLines : List String
  locLine : String
deriving DecidableEq

def linesOfBlocks : List PBlock → List String
  | [] => []
  | b :: rest => b.metaLine :: (b.midLines ++ b.locLine :: linesOfBlocks rest)

/-- A middle line: classifies as `#EXTGRP:` or as a non-finalising
locator-branch line (empty URL part after trimming). -/
def midOK (x : String) : Bool :=
  !jsStartsWith (jsTrim x) "#EXTINF:" &&
  !jsStartsWith (jsTrim x) "#EXTVLCOPT:" &&
  (jsStartsWith (jsTrim x) "#EXTGRP:" || getUrl (jsTrim x) == "")

def blockOK (b : PBlock) : Bool :=
  jsStartsWith (jsTrim b.metaLine) "#EXTINF:" &&
  b.midLines.all midOK &&
  !jsStartsWith (jsTrim b.locLine) "#EXTINF:" &&
  !jsStartsWith (jsTrim b.locLine) "#EXTVLCOPT:" &&
  !jsStartsWith (jsTrim b.locLine) "#EXTGRP:" &&
  !(getUrl (jsTrim b.locLine) == "")

def blocksOK (bs : List PBlock) : Bool :=
  bs.all blockOK

/-- Effect of a run of middle lines on the entry at the current slot
(mirrors the `#EXTGRP:` branch and the non-finalising locator branch of
the parse loop; the `groups` side effect is tracked separately). -/
def midItem : PlaylistItem → List String → PlaylistItem
  | item, [] => item
  | item, x :: xs =>
    if jsStartsWith (jsTrim x) "#EXTGRP:" then
      midItem
        { item with
          group := { title := getValue (jsTrim x) }
          raw := mergeRaw item (jsTrim x) } xs
    else
      midItem { item with raw := mergeRaw item x } xs

/-- Effect of the finalising locator line on the entry at the current slot
(URL, referrer, raw; the user-agent survives unchanged — see the note on
the locator branch of `parseStep`). -/
def finishEntry (item : PlaylistItem) (l : String) : PlaylistItem :=
  { item with
    url := some (getUrl (jsTrim l))
    http := { userAgent := item.http.userAgent
              referrer := getParameter (jsTrim l) "referer" }
    raw := mergeRaw item l }

/-- The entry the parse loop stores for one block whose metadata line sits
at source position `m`. -/
def blockEntry (m : Nat) (b : PBlock) : PlaylistItem :=
  finishEntry (midItem (handleEXTINF (m, b.metaLine)) b.midLines) b.locLine

def blockEntries : Nat → Nat → List PBlock → List (Nat × PlaylistItem)
  | _, _, [] => []
  | n, m, b :: rest =>
    (n, blockEntry m b) :: blockEntries (n + 1) (m + 2 + b.midLines.length) rest

/-- What a middle line contributes to the entry's `raw`: the `#EXTGRP:`
branch appends the TRIMMED line (the handler receives the trimmed string),
the non-finalising branch appends the original line. -/
def midOut (x : String) : String :=
  if jsStartsWith (jsTrim x) "#EXTGRP:" then jsTrim x else x

/-- A block as it reappears in the serialised output. -/
def outBlock (b : PBlock) : PBlock :=
  { b with midLines := b.midLines.map midOut }

/-- Left fold of newline-append, the shape `mergeRaw` accumulation takes. -/
def rawJoin (r : String) (xs : List String) : String :=
  xs.foldl (fun acc x => acc ++ "\n" ++ x) r

/-- The `raw` text of a block's entry, as newline-joined lines. -/
def blockRaw (b : PBlock) : String :=
  rawJoin b.metaLine b.midLines ++ "\n" ++ b.locLine

theorem rawJoin_ne (xs : List String) : ∀ r : String, r ≠ "" →
    rawJoin r xs ≠ "" := by
  induction xs with
  | nil => intro r h; exact h
  | cons x xs ih =>
    intro r h
    exact ih (r ++ "\n" ++ x) (append_nl_ne r x)

theorem midItem_raw (xs : List String) :
    ∀ item : PlaylistItem, item.raw ≠ "" →
      (midItem item xs).raw = rawJoin item.raw (xs.map midOut) := by
  induction xs with
  | nil => intro item h; rfl
  | cons x xs ih =>
    intro item h
    cases h3 : jsStartsWith (jsTrim x) "#EXTGRP:" with
    | true =>
      have hmr : mergeRaw item (jsTrim x) = item.raw ++ "\n" ++ jsTrim x := by
        simp [mergeRaw, h]
      have hne2 : ({ item with
          group := { title := getValue (jsTrim x) }
          raw := mergeRaw item (jsTrim x) } : PlaylistItem).raw ≠ "" := by
        show mergeRaw item (jsTrim x) ≠ ""
        rw [hmr]
        exact append_nl_ne _ _
      simp only [midItem, h3, if_true]
      rw [ih _ hne2]
      show rawJoin (mergeRaw item (jsTrim x)) (xs.map midOut) = _
      rw [hmr]
      simp only [List.map_cons, midOut, h3, if_true]
      rfl
    | false =>
      have hmr : mergeRaw item x = item.raw ++ "\n" ++ x := by
        simp [mergeRaw, h]
      have hne2 : ({ item with raw := mergeRaw item x } : PlaylistItem).raw ≠ "" := by
        show mergeRaw item x ≠ ""
        rw [hmr]
        exact append_nl_ne _ _
      simp only [midItem, h3, Bool.false_eq_true, if_false]
      rw [ih _ hne2]
      show rawJoin (mergeRaw item x) (xs.map midOut) = _
      rw [hmr]
      simp only [List.map_cons, midOut, h3, Bool.false_eq_true, if_false]
      rfl

theorem blockEntry_raw (m : Nat) (b : PBlock)
    (he : jsStartsWith (jsTrim b.metaLine) "#EXTINF:" = true) :
    (blockEntry m b).raw = blockRaw (outBlock b) := by
  have hbase : (handleEXTINF (m, b.metaLine)).raw = b.metaLine := rfl
  have hne : b.metaLine ≠ "" := ne_empty_of_extinf _ he
  have hmid := midItem_raw b.midLines (handleEXTINF (m, b.metaLine))
    (by rw [hbase]; exact hne)
  have hnemid : (midItem (handleEXTINF (m, b.metaLine)) b.midLines).raw ≠ "" := by
    rw [hmid, hbase]
    exact rawJoin_ne _ _ hne
  show mergeRaw (midItem (handleEXTINF (m, b.metaLine)) b.midLines) b.locLine = _
  rw [mergeRaw_ne _ _ hnemid, hmid, hbase]
  rfl

theorem blockEntries_raws (bs : List PBlock) :
    ∀ n m, blocksOK bs = true →
      (blockEntries n m bs).map (fun p => p.2.raw) =
        (bs.map outBlock).map blockRaw := by
  induction bs with
  | nil => intro n m _; rfl
  | cons b rest ih =>
    intro n m hb
    simp only [blocksOK, List.all_cons, Bool.and_eq_true] at hb
    obtain ⟨hbe, hbrest⟩ := hb
    have he : jsStartsWith (jsTrim b.metaLine) "#EXTINF:" = true := by
      simp only [blockOK, Bool.and_eq_true] at hbe
      exact hbe.1.1.1.1.1
    simp only [blockEntries, List.map_cons]
    rw [blockEntry_raw m b he, ih (n + 1) (m + 2 + b.midLines.length) hbrest]

theorem joinSep_rawJoin (xs : List String) :
    ∀ (e l : String) (L : List String),
      joinSep "\n" ((rawJoin e xs ++ "\n" ++ l) :: L) =
        joinSep "\n" (e :: (xs ++ l :: L)) := by
  induction xs with
  | nil =>
    intro e l L
    rw [joinSep_glue]
    rfl
  | cons x xs ih =>
    intro e l L
    rw [show rawJoin e (x :: xs) = rawJoin (e ++ "\n" ++ x) xs from rfl,
      ih (e ++ "\n" ++ x) l L, joinSep_glue]
    simp only [List.cons_append]
    rw [joinSep_cons₂]

theorem joinSep_blocksRaw (bs : List PBlock) (h : bs ≠ []) :
    joinSep "\n" (bs.map blockRaw) = joinSep "\n" (linesOfBlocks bs) := by
  induction bs with
  | nil => contradiction
  | cons b rest ih =>
    obtain ⟨e, mids, l⟩ := b
    cases rest with
    | nil =>
      have := joinSep_rawJoin mids e l []
      simpa [blockRaw, linesOfBlocks] using this
    | cons b2 rest2 =>
      have hmap : (List.map blockRaw (b2 :: rest2)) ≠ [] := by simp
      have hlines : linesOfBlocks (b2 :: rest2) ≠ [] := by
        cases b2
        simp [linesOfBlocks]
      rw [List.map_cons, joinSep_cons_ne _ _ _ hmap, ih (by simp),
        ← joinSep_cons_ne _ _ _ hlines]
      have := joinSep_rawJoin mids e l (linesOfBlocks (b2 :: rest2))
      simpa [blockRaw, linesOfBlocks] using this

/-! ### Evaluating the parse loop on block lines -/

theorem foldl_parseStep_mids (xs : List String) :
    ∀ (n m : Nat) (items : List (Nat × PlaylistItem)) (item : PlaylistItem)
      (groups : List String),
      (∀ p ∈ items, p.1 ≠ n) → 1 ≤ m → xs.all midOK = true →
      ∃ g, List.foldl parseStep ⟨n, items ++ [(n, item)], groups⟩
          (List.enumFrom m xs) =
        ⟨n, items ++ [(n, midItem item xs)], g⟩ := by
  induction xs with
  | nil =>
    intro n m items item groups _ _ _
    exact ⟨groups, by simp [midItem]⟩
  | cons x xs ih =>
    intro n m items item groups hfresh hm hall
    simp only [List.all_cons, Bool.and_eq_true] at hall
    obtain ⟨hx, hxs⟩ := hall
    simp only [midOK, Bool.and_eq_true, Bool.not_eq_true', Bool.or_eq_true,
      beq_iff_eq] at hx
    obtain ⟨⟨h1, h2⟩, h3or⟩ := hx
    have hm0 : m ≠ 0 := by omega
    have hget : jsMapGet (items ++ [(n, item)]) n = some item :=
      jsMapGet_append_last items n item hfresh
    rw [List.enumFrom_cons, List.foldl_cons]
    cases h3 : jsStartsWith (jsTrim x) "#EXTGRP:" with
    | true =>
      have hupd : midItem item (x :: xs) =
          midItem
            { item with
              group := { title := getValue (jsTrim x) }
              raw := mergeRaw item (jsTrim x) } xs := by
        simp [midItem, h3]
      have step : parseStep ⟨n, items ++ [(n, item)], groups⟩ (m, x) =
          ⟨n, items ++
            [(n, { item with
                   group := { title := getValue (jsTrim x) }
                   raw := mergeRaw item (jsTrim x) })],
            groups⟩ := by
        rw [parseStep_extgrp _ m x item hm0 h1 h2 h3 hget]
        show (⟨n, jsMapSet (items ++ [(n, item)]) n
            { item with
              group := { title := getValue (jsTrim x) }
              raw := mergeRaw item (jsTrim x) }, groups⟩ : LoopState) = _
        rw [jsMapSet_append_last items n _ _ hfresh]
      rw [step, hupd]
      exact ih n (m + 1) items _ groups hfresh (by omega) hxs
    | false =>
      have hurl : getUrl (jsTrim x) = "" := by
        rcases h3or with h | h
        · simp [h] at h3
        · exact h
      have hupd : midItem item (x :: xs) =
          midItem { item with raw := mergeRaw item x } xs := by
        simp [midItem, h3]
      have step : parseStep ⟨n, items ++ [(n, item)], groups⟩ (m, x) =
          ⟨n, items ++ [(n, { item with raw := mergeRaw item x })],
            setAdd groups item.group.title⟩ := by
        rw [parseStep_nofinal _ m x item hm0 h1 h2 h3 hget hurl]
        show (⟨n, jsMapSet (items ++ [(n, item)]) n
            { item with raw := mergeRaw item x },
          setAdd groups item.group.title⟩ : LoopState) = _
        rw [jsMapSet_append_last items n _ _ hfresh]
      rw [step, hupd]
      exact ih n (m + 1) items _ (setAdd groups item.group.title) hfresh
        (by omega) hxs

theorem foldl_parseStep_blocks (bs : List PBlock) :
    ∀ (n m : Nat) (items : List (Nat × PlaylistItem)) (groups : List String),
      (∀ p ∈ items, p.1 < n) → 1 ≤ m → blocksOK bs = true →
      ∃ g, List.foldl parseStep ⟨n, items, groups⟩
          (List.enumFrom m (linesOfBlocks bs)) =
        ⟨n + bs.length, items ++ blockEntries n m bs, g⟩ := by
  induction bs with
  | nil =>
    intro n m items groups _ _ _
    exact ⟨groups, by simp [linesOfBlocks, blockEntries]⟩
  | cons b rest ih =>
    intro n m items groups hk hm hb
    obtain ⟨e, mids, l⟩ := b
    simp only [blocksOK, List.all_cons, Bool.and_eq_true] at hb
    obtain ⟨hbe, hbrest⟩ := hb
    simp only [blockOK, Bool.and_eq_true, Bool.not_eq_true'] at hbe
    obtain ⟨⟨⟨⟨⟨he, hmall⟩, h1⟩, h2⟩, h3⟩, hu⟩ := hbe
    have hurl : getUrl (jsTrim l) ≠ "" := by
      intro hx
      rw [hx] at hu
      simp at hu
    have hm0 : m ≠ 0 := by omega
    have hfresh : ∀ p ∈ items, p.1 ≠ n := fun p hp => Nat.ne_of_lt (hk p hp)
    have hdec : List.enumFrom m (linesOfBlocks (⟨e, mids, l⟩ :: rest)) =
        (m, e) :: (List.enumFrom (m + 1) mids ++
          (m + 1 + mids.length, l) ::
            List.enumFrom (m + 1 + mids.length + 1) (linesOfBlocks rest)) := by
      simp [linesOfBlocks, List.enumFrom_append]
    have s2 : parseStep ⟨n, items, groups⟩ (m, e) =
        ⟨n, items ++ [(n, handleEXTINF (m, e))], groups⟩ := by
      rw [parseStep_extinf _ m e hm0 he]
      show (⟨n, jsMapSet items n (handleEXTINF (m, e)), groups⟩ : LoopState) = _
      rw [jsMapSet_fresh items n _ hfresh]
    obtain ⟨g1, hmids⟩ := foldl_parseStep_mids mids n (m + 1) items
      (handleEXTINF (m, e)) groups hfresh (by omega) hmall
    have hget' : jsMapGet (items ++ [(n, midItem (handleEXTINF (m, e)) mids)]) n =
        some (midItem (handleEXTINF (m, e)) mids) :=
      jsMapGet_append_last items n _ hfresh
    have s4 : parseStep ⟨n, items ++ [(n, midItem (handleEXTINF (m, e)) mids)], g1⟩
        (m + 1 + mids.length, l) =
        ⟨n + 1, items ++ [(n, finishEntry (midItem (handleEXTINF (m, e)) mids) l)],
          setAdd g1 (midItem (handleEXTINF (m, e)) mids).group.title⟩ := by
      rw [parseStep_locator _ (m + 1 + mids.length) l
        (midItem (handleEXTINF (m, e)) mids) (by omega) h1 h2 h3 hget' hurl]
      show (⟨n + 1,
        jsMapSet (items ++ [(n, midItem (handleEXTINF (m, e)) mids)]) n
          { midItem (handleEXTINF (m, e)) mids with
            url := some (getUrl (jsTrim l))
            http := { userAgent := (midItem (handleEXTINF (m, e)) mids).http.userAgent
                      referrer := getParameter (jsTrim l) "referer" }
            raw := mergeRaw (midItem (handleEXTINF (m, e)) mids) l },
        setAdd g1 (midItem (handleEXTINF (m, e)) mids).group.title⟩ : LoopState) = _
      rw [jsMapSet_append_last items n _ _ hfresh]
      rfl
    obtain ⟨g2, hrest⟩ := ih (n + 1) (m + 1 + mids.length + 1)
      (items ++ [(n, finishEntry (midItem (handleEXTINF (m, e)) mids) l)])
      (setAdd g1 (midItem (handleEXTINF (m, e)) mids).group.title)
      (by
        intro p hp
        rcases List.mem_append.mp hp with h' | h'
        · exact Nat.lt_succ_of_lt (hk p h')
        · simp at h'
          subst h'
          simp)
      (by omega) hbrest
    refine ⟨g2, ?_⟩
    rw [hdec, List.foldl_cons, s2, List.foldl_append, hmids, List.foldl_cons,
      s4, hrest]
    simp only [blockEntries, blockEntry]
    congr 1
    · simp only [List.length_cons]
      omega
    · simp only [List.append_assoc, List.singleton_append]
      congr 3
      omega

theorem parse_ok_of_split (raw hline : String) (tail : List String)
    (hsplit : splitChar '\n' raw = hline :: tail)
    (hh : jsStartsWith hline "#EXTM3U" = true) :
    parse raw = Except.ok
      { header := parseHeader hline
        items := (List.foldl parseStep ⟨0, [], []⟩ (List.enumFrom 1 tail)).items
        groups := (List.foldl parseStep ⟨0, [], []⟩ (List.enumFrom 1 tail)).groups } := by
  unfold parse
  rw [hsplit]
  simp [List.enum, List.find?, hh, parseStep_header]

/-! ### The written text re-parses to the same entries -/

theorem jsTrim_midOut (x : String) : jsTrim (midOut x) = jsTrim x := by
  unfold midOut
  split
  · exact jsTrim_idem x
  · rfl

theorem midOK_midOut (x : String) (h : midOK x = true) :
    midOK (midOut x) = true := by
  simp only [midOK, jsTrim_midOut]
  simp only [midOK] at h
  exact h

theorem midItem_midOut (xs : List String) :
    ∀ item, midItem item (xs.map midOut) = midItem item xs := by
  induction xs with
  | nil => intro item; rfl
  | cons x xs ih =>
    intro item
    cases h3 : jsStartsWith (jsTrim x) "#EXTGRP:" with
    | true =>
      simp only [List.map_cons, midOut, h3, if_true, midItem, jsTrim_idem]
      rw [ih]
    | false =>
      simp only [List.map_cons, midOut, h3, Bool.false_eq_true, if_false, midItem]
      rw [ih]

theorem blockEntries_out (bs : List PBlock) :
    ∀ n m, blockEntries n m (bs.map outBlock) = blockEntries n m bs := by
  induction bs with
  | nil => intro n m; rfl
  | cons b rest ih =>
    intro n m
    simp only [List.map_cons, blockEntries, blockEntry, outBlock,
      midItem_midOut, List.length_map]
    rw [ih]

theorem blocksOK_out (bs : List PBlock) :
    blocksOK bs = true → blocksOK (bs.map outBlock) = true := by
  induction bs with
  | nil => intro _; rfl
  | cons b rest ih =>
    intro hb
    simp only [blocksOK, List.map_cons, List.all_cons, Bool.and_eq_true] at hb ⊢
    obtain ⟨hbe, hbrest⟩ := hb
    refine ⟨?_, ih hbrest⟩
    simp only [blockOK, outBlock, Bool.and_eq_true] at hbe ⊢
    obtain ⟨⟨⟨⟨⟨he, hmall⟩, h1⟩, h2⟩, h3⟩, hu⟩ := hbe
    refine ⟨⟨⟨⟨⟨he, ?_⟩, h1⟩, h2⟩, h3⟩, hu⟩
    rw [List.all_map]
    apply List.all_eq_true.mpr
    intro x hx
    exact midOK_midOut x (List.all_eq_true.mp hmall x hx)

theorem linesOfBlocks_ne_nil (bs : List PBlock) (h : bs ≠ []) :
    linesOfBlocks bs ≠ [] := by
  cases bs with
  | nil => contradiction
  | cons b rest => simp [linesOfBlocks]

theorem no_nl_out (bs : List PBlock) :
    (∀ x ∈ linesOfBlocks bs, '\n' ∉ x.data) →
    ∀ x ∈ linesOfBlocks (bs.map outBlock), '\n' ∉ x.data := by
  induction bs with
  | nil =>
    intro _ x hx
    simp [linesOfBlocks] at hx
  | cons b rest ih =>
    intro h x hx
    have hmeta : '\n' ∉ b.metaLine.data := h _ (by simp [linesOfBlocks])
    have hloc : '\n' ∉ b.locLine.data := h _ (by simp [linesOfBlocks])
    have hmid : ∀ y ∈ b.midLines, '\n' ∉ y.data :=
      fun y hy => h y (by simp [linesOfBlocks, hy])
    have hrest : ∀ y ∈ linesOfBlocks rest, '\n' ∉ y.data :=
      fun y hy => h y (by simp [linesOfBlocks, hy])
    simp only [List.map_cons, linesOfBlocks, List.mem_cons, List.mem_append] at hx
    rcases hx with rfl | hx
    · exact hmeta
    rcases hx with hx | hx
    · rw [show (outBlock b).midLines = b.midLines.map midOut from rfl,
        List.mem_map] at hx
      obtain ⟨y, hy, rfl⟩ := hx
      unfold midOut
      split
      · intro hc
        exact hmid y hy (mem_of_mem_jsTrim y '\n' hc)
      · exact hmid y hy
    rcases hx with rfl | hx
    · exact hloc
    · exact ih hrest x hx

theorem write_blocks (hline : String) (bs : List PBlock) (g : List String)
    (hne : bs ≠ []) (hb : blocksOK bs = true) :
    write ⟨parseHeader hline, blockEntries 0 1 bs, g⟩ =
      joinSep "\n" (hline :: linesOfBlocks (bs.map outBlock)) := by
  have hbl : linesOfBlocks (bs.map outBlock) ≠ [] :=
    linesOfBlocks_ne_nil _ (by simpa using hne)
  show hline ++ "\n" ++
      joinSep "\n" ((blockEntries 0 1 bs).map (fun p => p.2.raw)) = _
  rw [blockEntries_raws bs 0 1 hb,
    joinSep_blocksRaw (bs.map outBlock) (by simpa using hne),
    joinSep_cons_ne _ _ _ hbl]

/-! ### Claim C1 -/

/-- **C1, counterexample.**  The original claim — for EVERY well-formed
playlist text, re-parsing the serialised output reproduces the entry map —
fails on a playlist containing an option-override line:
`handleEXTVLCOPT` replaces the entry's accumulated `raw` by
`"\r\n" + line`, so the written text loses the `#EXTINF:` line and the
re-parse produces an empty entry map (1 entry before, 0 after). -/
theorem claim1_cex :
    (parse "#EXTM3U\n#EXTINF:-1,A\n#EXTVLCOPT:http-referrer=r\nu").map
        (fun st => st.items.length) = Except.ok 1 ∧
    ((parse "#EXTM3U\n#EXTINF:-1,A\n#EXTVLCOPT:http-referrer=r\nu").bind
        (fun st => parse (write st))).map
        (fun st => st.items.length) = Except.ok 0 := by
  constructor
  · rfl
  · rfl

/-- **C1 (amended).**  For playlists that split into the `#EXTM3U` header
line followed by a non-empty sequence of blocks — each one metadata
(`#EXTINF:`) line, then any number of category-override (`#EXTGRP:`) lines
and/or non-finalising lines merged into the entry (blank after trimming, or
with an empty pre-pipe segment), then one finalising locator line with a
non-empty URL part — re-parsing the serialised output yields an ordered
entry map equal to the original parse's.  Only option-override
(`#EXTVLCOPT:`) lines and dropped lines are excluded, as the counterexample
forces.  (The serialised TEXT can differ from the input: the `#EXTGRP:`
handler appends the trimmed line to `raw`; the entry map still agrees.) -/
theorem claim1_roundtrip (raw hline : String) (bs : List PBlock)
    (hsplit : splitChar '\n' raw = hline :: linesOfBlocks bs)
    (hne : bs ≠ [])
    (hh : jsStartsWith hline "#EXTM3U" = true)
    (hb : blocksOK bs = true) :
    ∃ st st', parse raw = Except.ok st ∧ parse (write st) = Except.ok st' ∧
      st'.items = st.items := by
  obtain ⟨g, hfold⟩ := foldl_parseStep_blocks bs 0 1 [] [] (by simp) (by omega) hb
  have hparse := parse_ok_of_split raw hline (linesOfBlocks bs) hsplit hh
  rw [hfold] at hparse
  have hW : write ⟨parseHeader hline, blockEntries 0 1 bs, g⟩ =
      joinSep "\n" (hline :: linesOfBlocks (bs.map outBlock)) :=
    write_blocks hline bs g hne hb
  have hnoRaw : ∀ x ∈ splitChar '\n' raw, '\n' ∉ x.data :=
    splitChar_not_mem '\n' raw
  rw [hsplit] at hnoRaw
  have hno : ∀ x ∈ hline :: linesOfBlocks (bs.map outBlock), '\n' ∉ x.data := by
    intro x hx
    rcases List.mem_cons.mp hx with rfl | hx
    · exact hnoRaw x (List.mem_cons_self _ _)
    · exact no_nl_out bs (fun y hy => hnoRaw y (List.mem_cons_of_mem _ hy)) x hx
  have hsplitW : splitChar '\n'
      (write ⟨parseHeader hline, blockEntries 0 1 bs, g⟩) =
      hline :: linesOfBlocks (bs.map outBlock) := by
    rw [hW]
    exact splitChar_joinSep _ (by simp) hno
  obtain ⟨g', hfold'⟩ := foldl_parseStep_blocks (bs.map outBlock) 0 1 [] []
    (by simp) (by omega) (blocksOK_out bs hb)
  have hparse' := parse_ok_of_split _ hline (linesOfBlocks (bs.map outBlock))
    hsplitW hh
  rw [hfold'] at hparse'
  refine ⟨⟨parseHeader hline, blockEntries 0 1 bs, g⟩,
    ⟨parseHeader hline, blockEntries 0 1 (bs.map outBlock), g'⟩,
    by simpa using hparse, by simpa using hparse', ?_⟩
  show blockEntries 0 1 (bs.map outBlock) = blockEntries 0 1 bs
  exact blockEntries_out bs 0 1

/-- **C1 witness**: the amended round trip at a concrete playlist whose one
block carries a category-override line and a blank line between the
metadata line and the locator line. -/
theorem claim1_roundtrip_witness :
    (splitChar '\n' "#EXTM3U\n#EXTINF:-1,A\n#EXTGRP:g\n\nu" =
      "#EXTM3U" :: linesOfBlocks [⟨"#EXTINF:-1,A", ["#EXTGRP:g", ""], "u"⟩]) ∧
    ([⟨"#EXTINF:-1,A", ["#EXTGRP:g", ""], "u"⟩] : List PBlock) ≠ [] ∧
    jsStartsWith "#EXTM3U" "#EXTM3U" = true ∧
    blocksOK [⟨"#EXTINF:-1,A", ["#EXTGRP:g", ""], "u"⟩] = true ∧
    ∃ st st', parse "#EXTM3U\n#EXTINF:-1,A\n#EXTGRP:g\n\nu" = Except.ok st ∧
      parse (write st) = Except.ok st' ∧ st'.items = st.items :=
  ⟨by decide, by decide, by decide, by decide,
    claim1_roundtrip "#EXTM3U\n#EXTINF:-1,A\n#EXTGRP:g\n\nu" "#EXTM3U"
      [⟨"#EXTINF:-1,A", ["#EXTGRP:g", ""], "u"⟩]
      (by decide) (by decide) (by decide) (by decide)⟩

/-! ### Claim C2 -/

/-- **C2.**  When the first line of the input (the text before the first
newline; the whole input, or `""` for empty input) does not start with the
`#EXTM3U` marker, `parse` fails with the `"Playlist is not valid"` error.
The failure is fatal and exposes no partial entries: the source throws
before any write to `items`/`groups`/`header`, which the embedding models
by an `Except.error` result that carries no parser state at all. -/
theorem claim2_header_guard (raw : String)
    (h : jsStartsWith ((splitChar '\n' raw).headD "") "#EXTM3U" = false) :
    parse raw = Except.error "Playlist is not valid" := by
  unfold parse
  cases hsp : splitChar '\n' raw with
  | nil => simp [List.enum, List.find?]
  | cons f t =>
    rw [hsp] at h
    simp only [List.headD_cons] at h
    simp [List.enum, List.find?, h]

/-- **C2 witness**: empty input is rejected with the fatal format error. -/
theorem claim2_header_guard_witness :
    jsStartsWith ((splitChar '\n' "").headD "") "#EXTM3U" = false ∧
    parse "" = Except.error "Playlist is not valid" :=
  ⟨by decide, claim2_header_guard "" (by decide)⟩

/-! ### Claims C3 / C4: option-override lines -/

/-- A concrete entry as built from a metadata line carrying a user-agent
attribute (used by the option-override claims). -/
def sampleItem : PlaylistItem :=
  handleEXTINF (1, "#EXTINF:-1 user-agent=\"ua\",A")

/-- **C3 (code evaluation at the failing input).**  The entry at the
current slot carries transport user-agent `"ua"`; the option-override line
`#EXTVLCOPT:http-referrer=r` does not contain the `http-user-agent` option,
yet processing it RESETS the stored user-agent to `""` instead of leaving
it unchanged: `getOption` returns the string `""` for an absent option, so
the source's `?? item?.http["user-agent"]` fallback can never fire. -/
theorem claim3_override_reset :
    sampleItem.http.userAgent = "ua" ∧
    getOption "#EXTVLCOPT:http-referrer=r" "http-user-agent" = "" ∧
    (jsMapGet (handleEXTVLCOPT [(0, sampleItem)] "#EXTVLCOPT:http-referrer=r" 0) 0).map
        (fun it => it.http) =
      some { userAgent := "", referrer := "r" } := by
  refine ⟨by decide, by decide, by decide⟩

/-- **C4 (code evaluation at the failing input).**  Processing an
option-override line for an existing entry REPLACES the entry's `raw` by
`"\r\n" + line`: the previously accumulated raw text (here the `#EXTINF:`
line) is lost, in contradiction with the append behaviour the claim
describes (`mergeRaw` is not called by `handleEXTVLCOPT`). -/
theorem claim4_raw_replaced :
    (jsMapGet (handleEXTVLCOPT [(0, sampleItem)] "#EXTVLCOPT:http-referrer=r" 0) 0).map
        (fun it => it.raw) =
      some ("\r\n" ++ "#EXTVLCOPT:http-referrer=r") ∧
    ("\r\n" ++ "#EXTVLCOPT:http-referrer=r" : String) ≠
      sampleItem.raw ++ "\n" ++ "#EXTVLCOPT:http-referrer=r" := by
  refine ⟨by decide, by decide⟩

/-! ### Claim C5: locator lines with pipe parameters -/

/-- **C5 (code evaluation at the failing input).**  On the locator line
`http://x|user-agent=UA&referer=R` the pre-pipe segment does become the
resolved URL and the `referer` parameter is stored, and `getParameter`
does extract `"UA"` for `user-agent` — but the stored entry keeps its OLD
user-agent (`"old"`, from the metadata line): the source assigns the
extracted value to the shorthand object key `user_agent`, which is not the
declared `"user-agent"` key and is stripped by the zod validator, so the
pipe-carried user-agent is never merged into the entry. -/
theorem claim5_useragent_dropped :
    (parse "#EXTM3U\n#EXTINF:-1 user-agent=\"old\",A\nhttp://x|user-agent=UA&referer=R").map
        (fun st => (jsMapGet st.items 0).map (fun it => (it.url, it.http))) =
      Except.ok (some (some "http://x",
        ({ referrer := "R", userAgent := "old" } : HttpTransport))) ∧
    getParameter "http://x|user-agent=UA&referer=R" "user-agent" = "UA" :=
  ⟨by rfl, by decide⟩

/-! ### Claim C6: group registration -/

/-- **C6, counterexample.**  The original claim — a category title enters
`groups` only when a locator line finalises an entry — is false: on
`"#EXTM3U\n#EXTINF:-1 group-title=\"A\",X\n"` (a playlist whose final line
is blank) the group `"A"` is registered although no entry is ever
finalised (the only entry still has no resolved URL). -/
theorem claim6_cex :
    (parse "#EXTM3U\n#EXTINF:-1 group-title=\"A\",X\n").map
        (fun st => (st.groups, st.items.map (fun p => p.2.url))) =
      Except.ok (["A"], [none]) := by
  rfl

/-- **C6 (amended).**  The `groups` set is updated exactly when a
non-directive line — any line whose trimmed text starts with none of the
three directive markers, locator and blank lines alike — is processed
while an entry exists at the current slot; the update registers that
entry's current category title whether or not the line finalises the
entry.  On every other line `groups` is unchanged. -/
theorem claim6_groups_update (st : LoopState) (idx : Nat) (line : String)
    (hidx : idx ≠ 0) :
    (parseStep st (idx, line)).groups =
      if jsStartsWith (jsTrim line) "#EXTINF:" = false ∧
         jsStartsWith (jsTrim line) "#EXTVLCOPT:" = false ∧
         jsStartsWith (jsTrim line) "#EXTGRP:" = false then
        (jsMapGet st.items st.i).elim st.groups
          (fun item => setAdd st.groups item.group.title)
      else st.groups := by
  cases h1 : jsStartsWith (jsTrim line) "#EXTINF:" with
  | true => simp [parseStep, hidx, h1]
  | false =>
    cases h2 : jsStartsWith (jsTrim line) "#EXTVLCOPT:" with
    | true =>
      cases hg : jsMapGet st.items st.i with
      | none => simp [parseStep, hidx, h1, h2, hg]
      | some item => simp [parseStep, hidx, h1, h2, hg]
    | false =>
      cases h3 : jsStartsWith (jsTrim line) "#EXTGRP:" with
      | true =>
        cases hg : jsMapGet st.items st.i with
        | none => simp [parseStep, hidx, h1, h2, h3, hg]
        | some item => simp [parseStep, hidx, h1, h2, h3, hg]
      | false =>
        cases hg : jsMapGet st.items st.i with
        | none => simp [parseStep, hidx, h1, h2, h3, hg]
        | some item =>
          by_cases hu : getUrl (jsTrim line) = ""
          · simp [parseStep, hidx, h1, h2, h3, hg, hu]
          · simp [parseStep, hidx, h1, h2, h3, hg, hu]

/-- **C6 witness**: the amended characterisation applied to a blank line
processed while an entry exists at slot 0. -/
theorem claim6_groups_update_witness :
    (1 : Nat) ≠ 0 ∧
    (parseStep ⟨0, [(0, sampleItem)], []⟩ (1, "")).groups =
      (if jsStartsWith (jsTrim "") "#EXTINF:" = false ∧
          jsStartsWith (jsTrim "") "#EXTVLCOPT:" = false ∧
          jsStartsWith (jsTrim "") "#EXTGRP:" = false then
        (jsMapGet (⟨0, [(0, sampleItem)], []⟩ : LoopState).items
            (⟨0, [(0, sampleItem)], []⟩ : LoopState).i).elim
          (⟨0, [(0, sampleItem)], []⟩ : LoopState).groups
          (fun item =>
            setAdd (⟨0, [(0, sampleItem)], []⟩ : LoopState).groups item.group.title)
      else (⟨0, [(0, sampleItem)], []⟩ : LoopState).groups) :=
  ⟨by decide, claim6_groups_update ⟨0, [(0, sampleItem)], []⟩ 1 "" (by decide)⟩

/-! ### Claim C7: case-insensitive filtering -/

/-- **C7.**  Membership in `getPlaylistItems`: an entry is kept exactly when
it is one of the stored entry values and the lowered requested string is a
prefix of its lowered category title (case-insensitive prefix match); in
particular title `"Sports"` matches filters `"sports"` and `"Sp"` but not
`"ports"`. -/
theorem claim7_ci_filter :
    (∀ (p : ParserObj) (g : String) (it : PlaylistItem),
      it ∈ getPlaylistItems p g ↔
        it ∈ p.items.map (fun q => q.2) ∧
          (lowerStr g).data <+: (lowerStr it.group.title).data) ∧
    ((lowerStr "sports").data <+: (lowerStr "Sports").data) ∧
    ((lowerStr "Sp").data <+: (lowerStr "Sports").data) ∧
    ¬ ((lowerStr "ports").data <+: (lowerStr "Sports").data) := by
  refine ⟨?_, by decide, by decide, by decide⟩
  intro p g it
  simp [getPlaylistItems, List.mem_filter, jsStartsWith,
    List.isPrefixOf_iff_prefix]

/-! ### Claim C8: total attribute extraction -/

/-- Claim-side description of attribute lookup, following the spec's words:
collect the matches position by position from the left, take the FIRST
one's captured value (or the empty value when there is none), and trim it.
To be compared with the scanner embedded from the source. -/
def firstAttrSpec (name : String) (line : String) : String :=
  jsTrim ⟨(line.data.tails.filterMap
    (attrMatchAt (name.data ++ ['=', '"']))).head?.getD []⟩

theorem attrMatchAt_nil (pat : List Char) : attrMatchAt pat [] = none := by
  cases pat <;> rfl

theorem findAttr_tails (pat : List Char) (cs : List Char) :
    findAttr pat cs = (cs.tails.filterMap (attrMatchAt pat)).head? := by
  induction cs with
  | nil => simp [findAttr, attrMatchAt_nil]
  | cons c cs ih =>
    cases h : attrMatchAt pat (c :: cs) with
    | some v => simp [findAttr, h]
    | none => simp [findAttr, h, ih]

/-- **C8.**  Attribute extraction is total — a plain string in every case:
`getAttribute` always equals the claim-side "first match's value, trimmed,
or empty string when absent" description (the empty-capture case also
lands on `""` because `""` is falsy in the source and trimming `""` is
`""`).  The conjuncts instantiate it: a present attribute (matched
case-insensitively and trimmed) and an absent one (empty string, not an
absent result). -/
theorem claim8_attr_total :
    (∀ (name line : String), getAttribute name line = firstAttrSpec name line) ∧
    getAttribute "tvg-id" "#EXTINF:-1 TVG-ID=\" ABC \" group-title=\"News\",X" = "ABC" ∧
    getAttribute "tvg-id" "#EXTINF:-1 group-title=\"News\",X" = "" := by
  refine ⟨?_, by decide, by decide⟩
  intro name line
  unfold getAttribute firstAttrSpec
  rw [findAttr_tails]
  cases h : (line.data.tails.filterMap
      (attrMatchAt (name.data ++ ['=', '"']))).head? with
  | none => rfl
  | some v =>
    by_cases hv : v = []
    · subst hv
      simp only [if_pos rfl, Option.getD_some]
      rfl
    · simp [hv]

/-! ### Claim C9: the filter cache and bulk updates -/

/-- The playlist `getPlaylistsByGroups` builds on a cache miss. -/
def freshPlaylist (p : ParserObj) (gs : List String) : Playlist :=
  { header := p.header
    items := gs.foldl (fun acc g => acc ++ getPlaylistItems p g) []
    raw := none }

theorem byGroups_cached (p : ParserObj) (gs : List String) (q : ParserObj)
    (hfm : q.filteredMap = (getPlaylistsByGroups p gs).2.filteredMap) :
    (getPlaylistsByGroups q gs).1 = (getPlaylistsByGroups p gs).1 := by
  cases hc : jsMapGet p.filteredMap (joinSep "-" gs) with
  | some cached =>
    have h1 : getPlaylistsByGroups p gs = (cached, p) := by
      simp [getPlaylistsByGroups, hc]
    rw [h1] at hfm ⊢
    simp [getPlaylistsByGroups, hfm, hc]
  | none =>
    have h1 : getPlaylistsByGroups p gs =
        (freshPlaylist p gs,
         { p with filteredMap :=
             jsMapSet p.filteredMap (joinSep "-" gs) (freshPlaylist p gs) }) := by
      simp [getPlaylistsByGroups, hc, freshPlaylist]
    rw [h1] at hfm ⊢
    have h2 : jsMapGet q.filteredMap (joinSep "-" gs) =
        some (freshPlaylist p gs) := by
      rw [hfm]
      exact jsMapGet_set_self _ _ _
    simp [getPlaylistsByGroups, h2]

/-- **C9.**  (i) Repeating a filter query with the same requested category
list returns the previously cached playlist; (ii) `updateItems` and
(iii) `updatePlaylist` replace the entry map while leaving the filter cache
untouched; (iv) hence a query made after such a bulk replacement still
returns the result built from the OLD entry map, whatever the new entries
are — the documented stale-cache behaviour. -/
theorem claim9_stale_cache :
    (∀ (p : ParserObj) (gs : List String),
      (getPlaylistsByGroups (getPlaylistsByGroups p gs).2 gs).1 =
        (getPlaylistsByGroups p gs).1) ∧
    (∀ (p : ParserObj) (items : List (Nat × PlaylistItem)),
      (updateItems p items).filteredMap = p.filteredMap) ∧
    (∀ (p : ParserObj) (pl : Playlist),
      (updatePlaylist p pl).filteredMap = p.filteredMap) ∧
    (∀ (p : ParserObj) (gs : List String) (items : List (Nat × PlaylistItem)),
      (getPlaylistsByGroups (updateItems (getPlaylistsByGroups p gs).2 items) gs).1 =
        (getPlaylistsByGroups p gs).1) := by
  refine ⟨?_, ?_, ?_, ?_⟩
  · intro p gs
    exact byGroups_cached p gs _ rfl
  · intro p items
    rfl
  · intro p pl
    rfl
  · intro p gs items
    exact byGroups_cached p gs _ rfl

/-! ### Claim C10: colliding cache keys -/

/-- An entry whose category title is `"b"`. -/
def itemB : PlaylistItem :=
  handleEXTINF (1, "#EXTINF:-1 group-title=\"b\",B")

/-- A parser instance holding the single entry `itemB` and an empty filter
cache. -/
def sampleObj : ParserObj :=
  { rawPlaylist := ""
    items := [(0, itemB)]
    header := { attrs := [], raw := "#EXTM3U" }
    groups := ["b"]
    filteredMap := [] }

/-- **C10.**  The single-category key for `"ab"` (characters re-joined with
`"-"`) and the multi-category key for `["a", "b"]` (join with `"-"`) are
both `"a-b"`, so the two queries collide on one cache slot, in both orders:
(i) the single query for `"ab"` on `sampleObj` computes `[]`;
(ii) the multi query for `["a", "b"]` run AFTER it returns that cached `[]`,
although (iii) run fresh it computes `[itemB]`;
(iv) conversely the single query for `"ab"` run after the multi query
returns the multi query's `[itemB]` instead of its own `[]`. -/
theorem claim10_key_collision :
    joinSep "-" ("ab".data.map (fun c => ⟨[c]⟩)) = joinSep "-" ["a", "b"] ∧
    (getPlaylistByGroup sampleObj "ab").1.items = [] ∧
    (getPlaylistsByGroups (getPlaylistByGroup sampleObj "ab").2 ["a", "b"]).1.items = [] ∧
    (getPlaylistsByGroups sampleObj ["a", "b"]).1.items = [itemB] ∧
    (getPlaylistByGroup (getPlaylistsByGroups sampleObj ["a", "b"]).2 "ab").1.items = [itemB] := by
  refine ⟨by decide, by decide, by decide, by decide, by decide⟩
